import Mathlib

/-!
Shallow embedding of the column engine of parity-db (`src/column.rs`) and
proofs about its operations.

The column facade itself (`Column::get`, `write_plan`, `write_reindex_plan`,
`validate_plan`, `reindex`, `drop_index`, `open_index`, `hash`,
`compress_internal`, `trigger_reindex`) is translated from the source.
Its collaborators (the index table, the tiered value tables, the compression
codec and the log) are not part of this repository's sources; they are
modelled from the specification's description of their interfaces.  The log
overlay is folded into the table state: every `write_*_plan` call both emits a
plan record and updates the modelled table, which matches the source's
behaviour where later lookups in the same planning session observe the staged
records through the log overlay.  Rust panics are modelled as `Option.none`.
-/

/-- A 32-byte key, encoded as a natural number below `2 ^ 256`. -/
abbrev Key := Nat

/-- A stored payload: a byte sequence. -/
abbrev Value := List Nat

/-- Modelled from the spec: an address encodes `(size_tier, offset)` of a
value-table slot.  The source packs both into 64 bits via the index module;
the claims only use the two projections, so the model keeps them as fields. -/
structure Address where
  offset : Nat
  size_tier : Nat
deriving DecidableEq, Repr

/-- An index-table entry: empty, or an address. -/
abbrev Entry := Option Address

/-- Identifier of an index table: `(column id, index_bits)`. -/
structure IndexTableId where
  col : Nat
  index_bits : Nat
deriving DecidableEq, Repr

/-- Identifier of a value table: `(column id, size tier)`. -/
structure ValueTableId where
  col : Nat
  size_tier : Nat
deriving DecidableEq, Repr

/-- Outcome of planning a mutation (`PlanOutcome` in the source). -/
inductive PlanOutcome where
  | Written
  | Skipped
  | NeedReindex
deriving DecidableEq, Repr

/-- `const START_BITS: u8 = 16` from the source. -/
def START_BITS : Nat := 16

/-- `const MAX_REBALANCE_BATCH: usize = 8192` from the source. -/
def MAX_REBALANCE_BATCH : Nat := 8192

/-- Modelled from the spec: the index module's fixed number of probe slots in
one chunk ("each chunk carries a small, fixed number of entries"). -/
def CHUNK_ENTRIES : Nat := 64

/-- Modelled from the spec: an index table holds `2 ^ index_bits` chunks of
probe entries, addressed by the high bits of the key.  `chunks` maps a chunk
index to its probe sequence; positions beyond the list are empty entries. -/
structure IndexTable where
  id : IndexTableId
  chunk_cap : Nat
  chunks : Nat → List Entry

namespace IndexTable

/-- Total number of chunks, `2 ^ index_bits` per the spec. -/
def total_chunks (t : IndexTable) : Nat := 2 ^ t.id.index_bits

/-- Chunk index of a key: its high `index_bits` bits (keys are 256 bits). -/
def key_index (t : IndexTable) (key : Key) : Nat :=
  (key % 2 ^ 256) / 2 ^ (256 - t.id.index_bits)

/-- Modelled from the spec: a fresh, empty index table (`create_new`). -/
def create_new (id : IndexTableId) (cap : Nat) : IndexTable :=
  { id := id, chunk_cap := cap, chunks := fun _ => [] }

/-- Replace one chunk of the table. -/
def set_chunk (t : IndexTable) (c : Nat) (chunk : List Entry) : IndexTable :=
  { t with chunks := fun i => if i = c then chunk else t.chunks i }

/-- First non-empty entry of a probe-sequence suffix, with its position. -/
def probe_from : List Entry → Nat → Entry × Nat
  | [], n => (none, n)
  | none :: rest, n => probe_from rest (n + 1)
  | some a :: _, n => (some a, n)

/-- Modelled from the spec: `index.get(key, sub_index)` returns the probe
entry at or after `sub_index`; a returned empty entry terminates the chain. -/
def get (t : IndexTable) (key : Key) (sub : Nat) : Entry × Nat :=
  probe_from ((t.chunks (t.key_index key)).drop sub) sub

/-- Modelled from the spec: `index.write_insert_plan(key, address, sub_index)`
writes into the probe slot `sub_index` when given, otherwise into the first
empty slot of the key's chunk; a full chunk that cannot hold another probe
step yields `NeedReindex` (and plans nothing). -/
def write_insert_plan (t : IndexTable) (key : Key) (address : Address)
    (sub : Option Nat) : PlanOutcome × IndexTable :=
  let ci := t.key_index key
  let chunk := t.chunks ci
  match sub with
  | some i => (PlanOutcome.Written, t.set_chunk ci (chunk.set i (some address)))
  | none =>
    match chunk.findIdx? (fun e => e.isNone) with
    | some i => (PlanOutcome.Written, t.set_chunk ci (chunk.set i (some address)))
    | none =>
      if chunk.length < t.chunk_cap then
        (PlanOutcome.Written, t.set_chunk ci (chunk ++ [some address]))
      else
        (PlanOutcome.NeedReindex, t)

/-- Modelled from the spec: `index.write_remove_plan(key, sub_index)` clears
the probe slot `sub_index` of the key's chunk. -/
def write_remove_plan (t : IndexTable) (key : Key) (sub : Nat) : IndexTable :=
  let ci := t.key_index key
  t.set_chunk ci ((t.chunks ci).set sub none)

/-- Modelled from the spec: the index module recovers the chunk-derived key
prefix (the high `index_bits` bits of the key) from a chunk index; the partial
key bits stored in the entry itself are not modelled
(`recover_key_prefix` in the source). -/
def recover_key_pfx (t : IndexTable) (c : Nat) : Key :=
  c * 2 ^ (256 - t.id.index_bits)

end IndexTable

/-- Modelled from the spec: one stored value-table record
`{payload, ref_count, partial_key, compressed_flag}` (the partial key is kept
as the full key, since only full-key comparison is observable here). -/
structure ValueSlot where
  key : Key
  value : Value
  rc : Nat
  compressed : Bool
deriving DecidableEq, Repr

/-- Modelled from the spec: a fixed-slot value table of one size tier.
`slots` is indexed by offset; `value_size` is the tier's maximum payload. -/
structure ValueTable where
  value_size : Nat
  slots : List (Option ValueSlot)
deriving DecidableEq, Repr

namespace ValueTable

/-- The empty value table (used as an out-of-range default). -/
def empty : ValueTable := { value_size := 0, slots := [] }

/-- The slot at an offset (empty when out of range). -/
def slot_at (t : ValueTable) (offset : Nat) : Option ValueSlot :=
  t.slots.getD offset none

/-- Modelled from the spec: `has_key_at(offset, key)` confirms that the slot
at `offset` stores a record whose full key matches `key`. -/
def has_key_at (t : ValueTable) (offset : Nat) (key : Key) : Bool :=
  match t.slot_at offset with
  | some s => s.key = key
  | none => false

/-- Modelled from the spec: `get(key, offset)` returns the payload and the
compressed flag only when the slot's full key matches. -/
def get (t : ValueTable) (key : Key) (offset : Nat) : Option (Value × Bool) :=
  match t.slot_at offset with
  | some s => if s.key = key then some (s.value, s.compressed) else none
  | none => none

/-- Replace the slot at an offset. -/
def set_slot (t : ValueTable) (offset : Nat) (s : Option ValueSlot) : ValueTable :=
  { t with slots := t.slots.set offset s }

/-- Modelled from the spec: `write_insert_plan(key, value, compressed)` plans
a new record with refcount one and returns its offset. -/
def write_insert_plan (t : ValueTable) (key : Key) (value : Value)
    (compressed : Bool) : Nat × ValueTable :=
  (t.slots.length,
   { t with slots := t.slots ++ [some { key := key, value := value, rc := 1, compressed := compressed }] })

/-- Modelled from the spec: `write_replace_plan(offset, key, value,
compressed)` overwrites the record in place, keeping its refcount. -/
def write_replace_plan (t : ValueTable) (offset : Nat) (key : Key)
    (value : Value) (compressed : Bool) : ValueTable :=
  let rc := match t.slot_at offset with
    | some s => s.rc
    | none => 1
  t.set_slot offset (some { key := key, value := value, rc := rc, compressed := compressed })

/-- Modelled from the spec: `write_remove_plan(offset)` frees the slot. -/
def write_remove_plan (t : ValueTable) (offset : Nat) : ValueTable :=
  t.set_slot offset none

/-- Modelled from the spec: `write_inc_ref(offset)` increments the refcount. -/
def write_inc_ref (t : ValueTable) (offset : Nat) : ValueTable :=
  match t.slot_at offset with
  | some s => t.set_slot offset (some { s with rc := s.rc + 1 })
  | none => t

/-- Modelled from the spec: `write_dec_ref(offset)` decrements the refcount,
freeing the slot when it reaches zero; returns whether the record remains. -/
def write_dec_ref (t : ValueTable) (offset : Nat) : Bool × ValueTable :=
  match t.slot_at offset with
  | some s =>
    if s.rc ≤ 1 then (false, t.set_slot offset none)
    else (true, t.set_slot offset (some { s with rc := s.rc - 1 }))
  | none => (false, t)

end ValueTable

/-- Modelled from the spec: the compression codec.  `treshold` keeps the
source's spelling; `compress` and `decompress` are the codec functions. -/
structure Compress where
  treshold : Nat
  compress : Value → Value
  decompress : Value → Value

/-- Modelled from the spec: the per-column statistics counters touched by the
column facade (`stats.rs` is out of scope; each counter counts events). -/
structure ColumnStats where
  query_hit : Nat
  query_miss : Nat
  remove_miss : Nat
  insert_val : Nat
  replace_val : Nat
  remove_val : Nat
deriving DecidableEq, Repr

namespace ColumnStats

def emptyStats : ColumnStats := ⟨0, 0, 0, 0, 0, 0⟩

def add_query_hit (s : ColumnStats) : ColumnStats := { s with query_hit := s.query_hit + 1 }

def add_query_miss (s : ColumnStats) : ColumnStats := { s with query_miss := s.query_miss + 1 }

def add_remove_miss (s : ColumnStats) : ColumnStats := { s with remove_miss := s.remove_miss + 1 }

def add_insert_val (s : ColumnStats) : ColumnStats := { s with insert_val := s.insert_val + 1 }

def add_replace_val (s : ColumnStats) : ColumnStats := { s with replace_val := s.replace_val + 1 }

def add_remove_val (s : ColumnStats) : ColumnStats := { s with remove_val := s.remove_val + 1 }

end ColumnStats

/-- `struct Tables { index, value }` from the source. -/
structure Tables where
  index : IndexTable
  value : List ValueTable

/-- Replace one value table (by tier) of the live set. -/
def Tables.set_value (ts : Tables) (tier : Nat) (t : ValueTable) : Tables :=
  { ts with value := ts.value.set tier t }

/-- `struct Reindex { queue, progress }` from the source. -/
structure Reindex where
  queue : List IndexTable
  progress : Nat

/-- `struct Column` from the source (the on-disk path is omitted). -/
structure Column where
  tables : Tables
  reindex : Reindex
  preimage : Bool
  uniform_keys : Bool
  collect_stats : Bool
  ref_counted : Bool
  salt : Option (List Nat)
  stats : ColumnStats
  compression : Compress
  db_version : Nat

/-- A record staged in the log writer by a column plan operation. -/
inductive PlanRecord where
  | incRef (tier : Nat) (offset : Nat)
  | decRef (tier : Nat) (offset : Nat)
  | removeValue (tier : Nat) (offset : Nat)
  | insertValue (tier : Nat) (key : Key) (value : Value) (compressed : Bool)
  | replaceValue (tier : Nat) (offset : Nat) (key : Key) (value : Value) (compressed : Bool)
  | insertIndex (table : IndexTableId) (key : Key) (address : Address) (sub : Option Nat)
  | removeIndex (table : IndexTableId) (key : Key) (sub : Nat)
deriving DecidableEq, Repr

/-- A log action replayed through `validate_plan` / `enact_plan`. -/
inductive LogAction where
  | insertIndex (table : IndexTableId)
  | insertValue (table : ValueTableId)
  | other
deriving DecidableEq, Repr

/-- Observable delegation target of `validate_plan`. -/
inductive ValidateOutcome where
  | delegatedIndex (id : IndexTableId)
  | delegatedValue (tier : Nat)
deriving DecidableEq, Repr

namespace Column

/-- `Column::decompress`. -/
def decompress (c : Column) (buf : Value) : Value :=
  c.compression.decompress buf

/-- `Column::compress_internal`: attempt compression above the threshold,
keep the compressed bytes only when strictly shorter, and pick the first tier
whose `value_size` fits the chosen length, falling back to the last tier. -/
def compress_internal (compression : Compress) (_key : Key) (value : Value)
    (tables : Tables) : Option Value × Nat :=
  let lenResult :=
    if compression.treshold < value.length then
      let cvalue := compression.compress value
      if cvalue.length < value.length then (cvalue.length, some cvalue)
      else (value.length, none)
    else (value.length, none)
  let target_tier := tables.value.findIdx? (fun t => lenResult.1 ≤ t.value_size)
  match target_tier with
  | some tier => (lenResult.2, tier)
  | none => (lenResult.2, tables.value.length - 1)

/-- `Column::compress`. -/
def compress (c : Column) (key : Key) (value : Value) (tables : Tables) :
    Option Value × Nat :=
  compress_internal c.compression key value tables

/-- The `while !entry.is_empty()` loop of `Column::get_in_index`; the fuel is
an upper bound on probe steps (the sub-index grows past the chunk length). -/
def get_in_index_loop (c : Column) (key : Key) (index : IndexTable)
    (tables : Tables) : Nat → Nat → Option (Nat × Value)
  | 0, _ => none
  | fuel + 1, sub =>
    match index.get key sub with
    | (none, _) => none
    | (some address, sub_index) =>
      let size_tier := address.size_tier
      match ValueTable.get (tables.value.getD size_tier ValueTable.empty) key address.offset with
      | some (value, compressed) =>
        some (size_tier, if compressed then c.decompress value else value)
      | none => get_in_index_loop c key index tables fuel (sub_index + 1)

/-- `Column::get_in_index`: walk the probe chain of one index, resolving each
non-empty entry through the value table of its tier. -/
def get_in_index (c : Column) (key : Key) (index : IndexTable)
    (tables : Tables) : Option (Nat × Value) :=
  get_in_index_loop c key index tables
    ((index.chunks (index.key_index key)).length + 1) 0

/-- `Column::get`: probe the current index, then each reindex-queue index in
order; returns the payload and the updated statistics. -/
def get (c : Column) (key : Key) : Option Value × ColumnStats :=
  match c.get_in_index key c.tables.index c.tables with
  | some (_, value) =>
    (some value, if c.collect_stats then c.stats.add_query_hit else c.stats)
  | none =>
    match c.reindex.queue.findSome? (fun r => c.get_in_index key r c.tables) with
    | some (_, value) =>
      (some value, if c.collect_stats then c.stats.add_query_hit else c.stats)
    | none =>
      (none, if c.collect_stats then c.stats.add_query_miss else c.stats)

/-- The probe loop of `Column::search_index`, confirming candidates through
`has_key_at`; the fuel is an upper bound on probe steps. -/
def search_index_loop (index : IndexTable) (tables : Tables) (key : Key) :
    Nat → Nat → Option (Nat × Nat × Address)
  | 0, _ => none
  | fuel + 1, sub =>
    match index.get key sub with
    | (none, _) => none
    | (some address, sub_index) =>
      if ValueTable.has_key_at (tables.value.getD address.size_tier ValueTable.empty)
          address.offset key then
        some (sub_index, address.size_tier, address)
      else
        search_index_loop index tables key fuel (sub_index + 1)

/-- `Column::search_index`: the confirming probe used by the writer; returns
the containing index's id, the probe position, the tier and the address. -/
def search_index (key : Key) (index : IndexTable) (tables : Tables) :
    Option (IndexTableId × Nat × Nat × Address) :=
  (search_index_loop index tables key
    ((index.chunks (index.key_index key)).length + 1) 0).map (fun r => (index.id, r))

/-- `Column::search_all_indexes`: current index first, then the queue. -/
def search_all_indexes (key : Key) (tables : Tables) (reindex : Reindex) :
    Option (IndexTableId × Nat × Nat × Address) :=
  match search_index key tables.index tables with
  | some r => some r
  | none => reindex.queue.findSome? (fun index => search_index key index tables)

/-- `Column::trigger_reindex`: allocate a fresh index with `index_bits + 1`,
swap it in as current, and enqueue the displaced index at the back. -/
def trigger_reindex (c : Column) : Column :=
  let new_index_id : IndexTableId :=
    { col := c.tables.index.id.col, index_bits := c.tables.index.id.index_bits + 1 }
  let new_table := IndexTable.create_new new_index_id c.tables.index.chunk_cap
  { c with
    tables := { c.tables with index := new_table },
    reindex := { c.reindex with queue := c.reindex.queue ++ [c.tables.index] } }

/-- Remove an index entry from whichever live index carries the given id
(the source removes through its borrowed reference to the found table). -/
def remove_index_entry (c : Column) (tid : IndexTableId) (key : Key) (sub : Nat) : Column :=
  if c.tables.index.id = tid then
    { c with tables := { c.tables with index := c.tables.index.write_remove_plan key sub } }
  else
    { c with reindex := { c.reindex with
        queue := c.reindex.queue.map (fun t => if t.id = tid then t.write_remove_plan key sub else t) } }

/-- `Column::write_plan`.  The source recurses into itself after
`trigger_reindex`; the fuel bounds that recursion (`none` = fuel exhausted,
which adequate fuel never reaches).  The result carries the outcome, the
post-plan column (tables as staged through the log overlay) and the list of
emitted log records. -/
def write_plan : Nat → Column → Key → Option Value →
    Option (PlanOutcome × Column × List PlanRecord)
  | 0, _, _, _ => none
  | fuel + 1, c, key, value =>
    let existing := search_all_indexes key c.tables c.reindex
    match value with
    | some val =>
      match existing with
      | some (tableId, sub_index, existing_tier, existing_address) =>
        if c.ref_counted then
          let vt := (c.tables.value.getD existing_tier ValueTable.empty).write_inc_ref
            existing_address.offset
          some (PlanOutcome.Written,
            { c with tables := c.tables.set_value existing_tier vt },
            [PlanRecord.incRef existing_tier existing_address.offset])
        else if c.preimage then
          -- Replace is not supported
          some (PlanOutcome.Skipped, c, [])
        else
          let cv := c.compress key val c.tables
          let cval := cv.1.getD val
          let compressed := cv.1.isSome
          let target_tier := cv.2
          let c1 := if c.collect_stats then { c with stats := c.stats.add_replace_val } else c
          if existing_tier = target_tier then
            let vt := (c1.tables.value.getD target_tier ValueTable.empty).write_replace_plan
              existing_address.offset key cval compressed
            some (PlanOutcome.Written,
              { c1 with tables := c1.tables.set_value target_tier vt },
              [PlanRecord.replaceValue target_tier existing_address.offset key cval compressed])
          else
            let vtOld := (c1.tables.value.getD existing_tier ValueTable.empty).write_remove_plan
              existing_address.offset
            let c2 := { c1 with tables := c1.tables.set_value existing_tier vtOld }
            let ins := (c2.tables.value.getD target_tier ValueTable.empty).write_insert_plan
              key cval compressed
            let c3 := { c2 with tables := c2.tables.set_value target_tier ins.2 }
            let new_address : Address := { offset := ins.1, size_tier := target_tier }
            -- If it was found in an older index we just insert a new entry.
            let subOpt := if tableId = c3.tables.index.id then some sub_index else none
            let outIdx := c3.tables.index.write_insert_plan key new_address subOpt
            some (outIdx.1,
              { c3 with tables := { c3.tables with index := outIdx.2 } },
              [PlanRecord.removeValue existing_tier existing_address.offset,
               PlanRecord.insertValue target_tier key cval compressed] ++
              (match outIdx.1 with
               | PlanOutcome.NeedReindex => []
               | _ => [PlanRecord.insertIndex c3.tables.index.id key new_address subOpt]))
      | none =>
        let cv := c.compress key val c.tables
        let cval := cv.1.getD val
        let compressed := cv.1.isSome
        let target_tier := cv.2
        let ins := (c.tables.value.getD target_tier ValueTable.empty).write_insert_plan
          key cval compressed
        let c1 := { c with tables := c.tables.set_value target_tier ins.2 }
        let address : Address := { offset := ins.1, size_tier := target_tier }
        let outIdx := c1.tables.index.write_insert_plan key address none
        match outIdx.1 with
        | PlanOutcome.NeedReindex =>
          match write_plan fuel (trigger_reindex c1) key value with
          | some (_, c2, recs) =>
            some (PlanOutcome.NeedReindex, c2,
              PlanRecord.insertValue target_tier key cval compressed :: recs)
          | none => none
        | _ =>
          let c2 := { c1 with tables := { c1.tables with index := outIdx.2 } }
          let c3 := if c2.collect_stats then { c2 with stats := c2.stats.add_insert_val } else c2
          some (PlanOutcome.Written, c3,
            [PlanRecord.insertValue target_tier key cval compressed,
             PlanRecord.insertIndex c1.tables.index.id key address none])
    | none =>
      match existing with
      | some (tableId, sub_index, existing_tier, existing_address) =>
        -- Deletion
        let step :=
          if c.ref_counted then
            let d := (c.tables.value.getD existing_tier ValueTable.empty).write_dec_ref
              existing_address.offset
            (!d.1, d.2, [PlanRecord.decRef existing_tier existing_address.offset])
          else
            ((true : Bool),
             (c.tables.value.getD existing_tier ValueTable.empty).write_remove_plan
               existing_address.offset,
             [PlanRecord.removeValue existing_tier existing_address.offset])
        let c1 := { c with tables := c.tables.set_value existing_tier step.2.1 }
        if step.1 then
          let c2 := if c1.collect_stats then { c1 with stats := c1.stats.add_remove_val } else c1
          let c3 := c2.remove_index_entry tableId key sub_index
          some (PlanOutcome.Written, c3,
            step.2.2 ++ [PlanRecord.removeIndex tableId key sub_index])
        else
          some (PlanOutcome.Written, c1, step.2.2)
      | none =>
        let c1 := if c.collect_stats then { c with stats := c.stats.add_remove_miss } else c
        some (PlanOutcome.Skipped, c1, [])

/-- `Column::write_reindex_plan`: reinsert a drained `(key, address)` pair
into the current index only, skipping keys the current index already holds;
retries through `trigger_reindex` when the chunk overflows. -/
def write_reindex_plan : Nat → Column → Key → Address →
    Option (PlanOutcome × Column × List PlanRecord)
  | 0, _, _, _ => none
  | fuel + 1, c, key, address =>
    if (search_index key c.tables.index c.tables).isSome then
      some (PlanOutcome.Skipped, c, [])
    else
      let outIdx := c.tables.index.write_insert_plan key address none
      match outIdx.1 with
      | PlanOutcome.NeedReindex =>
        match write_reindex_plan fuel (trigger_reindex c) key address with
        | some (_, c1, recs) => some (PlanOutcome.NeedReindex, c1, recs)
        | none => none
      | _ =>
        some (PlanOutcome.Written,
          { c with tables := { c.tables with index := outIdx.2 } },
          [PlanRecord.insertIndex c.tables.index.id key address none])

/-- `Column::validate_plan`: delegate an `InsertIndex` record to the current
or a queued index when its table is known, otherwise trigger a reindex and
retry; delegate `InsertValue` records to the value table of their tier.  The
fuel bounds the retry recursion; `none` also models the panics (unexpected
action, out-of-range tier). -/
def validate_plan : Nat → Column → LogAction → Option (Column × ValidateOutcome)
  | 0, _, _ => none
  | fuel + 1, c, action =>
    match action with
    | LogAction.insertIndex tid =>
      if c.tables.index.id = tid then
        some (c, ValidateOutcome.delegatedIndex tid)
      else
        match c.reindex.queue.find? (fun r => r.id = tid) with
        | some t => some (c, ValidateOutcome.delegatedIndex t.id)
        | none =>
          -- Re-launch previously started reindex
          validate_plan fuel (trigger_reindex c) (LogAction.insertIndex tid)
    | LogAction.insertValue vtid =>
      if vtid.size_tier < c.tables.value.length then
        some (c, ValidateOutcome.delegatedValue vtid.size_tier)
      else none
    | LogAction.other => none

/-- All `(key_prefix, address)` pairs of one chunk's non-empty entries. -/
def chunk_pairs (source : IndexTable) (c : Nat) : List (Key × Address) :=
  (source.chunks c).filterMap (fun e => e.map (fun a => (source.recover_key_pfx c, a)))

/-- The `while source_index < total && plan.len() < MAX_REBALANCE_BATCH` loop
of `Column::reindex`; the fuel (`total_chunks - progress` at the call site)
bounds the chunk cursor. -/
def reindex_loop (source : IndexTable) : Nat → Nat → List (Key × Address) →
    Nat × List (Key × Address)
  | 0, source_index, plan => (source_index, plan)
  | fuel + 1, source_index, plan =>
    if source_index < source.total_chunks ∧ plan.length < MAX_REBALANCE_BATCH then
      reindex_loop source fuel (source_index + 1) (plan ++ chunk_pairs source source_index)
    else (source_index, plan)

/-- `Column::reindex`: drain a batch from the front of the queue, advancing
the progress cursor; returns the updated column, the optional drop signal and
the batch of `(key_prefix, address)` pairs. -/
def reindex_step (c : Column) : Column × Option IndexTableId × List (Key × Address) :=
  match c.reindex.queue with
  | [] => (c, none, [])
  | source :: _ =>
    if c.reindex.progress ≠ source.total_chunks then
      let r := reindex_loop source (source.total_chunks - c.reindex.progress)
        c.reindex.progress []
      let drop_index := if r.1 = source.total_chunks then some source.id else none
      ({ c with reindex := { c.reindex with progress := r.1 } }, drop_index, r.2)
    else (c, none, [])

/-- `Column::drop_index`: pop the queue front when the id matches, resetting
the progress cursor; an id that is not the front is ignored. -/
def drop_index (c : Column) (id : IndexTableId) : Column × Bool :=
  match c.reindex.queue with
  | front :: rest =>
    if front.id = id then
      ({ c with reindex := { queue := rest, progress := 0 } }, true)
    else (c, false)
  | [] => (c, false)

/-- The descending scan `(START_BITS..65).rev()` of `Column::open_index`. -/
def descending_bits : List Nat := (List.range' START_BITS 49).reverse

/-- The scan loop of `Column::open_index`: the first (largest-bits) table
found becomes the top; later (smaller) ones are pushed to the queue front. -/
def open_index_go (disk : Nat → Option IndexTable) :
    Option IndexTable → List IndexTable → List Nat → Option IndexTable × List IndexTable
  | top, queue, [] => (top, queue)
  | top, queue, bits :: rest =>
    match disk bits with
    | some table =>
      match top with
      | none => open_index_go disk (some table) queue rest
      | some _ => open_index_go disk top (table :: queue) rest
    | none => open_index_go disk top queue rest

/-- `Column::open_index`: the on-disk state is modelled as a map from
`index_bits` to the index file found there, if any.  Scans bits descending
from 64 to 16; creates a fresh index at `START_BITS` when none exists. -/
def open_index (col : Nat) (disk : Nat → Option IndexTable) :
    IndexTable × List IndexTable :=
  let r := open_index_go disk none [] descending_bits
  match r.1 with
  | some table => (table, r.2)
  | none => (IndexTable.create_new { col := col, index_bits := START_BITS } CHUNK_ENTRIES, r.2)

/-- Big-endian byte-sequence value as a natural number. -/
def bytesToNat (l : List Nat) : Nat := l.foldl (fun a b => a * 256 + b) 0

/-- `Column::hash`: uniform columns copy the first 32 bytes of the input
verbatim (`&key[0..32]` — a slice panic, modelled as `none`, when the input
is shorter); otherwise BLAKE2b-256 of the input, keyed by the salt when
present.  The BLAKE2b compression itself is external (`blake2_rfc` crate) and
is passed as a function argument `blake` taking the hash key and the data. -/
def hash (c : Column) (blake : List Nat → List Nat → List Nat)
    (input : List Nat) : Option Key :=
  if c.uniform_keys then
    if 32 ≤ input.length then some (Column.bytesToNat (input.take 32)) else none
  else
    match c.salt with
    | some salt => some (bytesToNat (blake salt input))
    | none => some (bytesToNat (blake [] input))

end Column


/-! ## Helper lemmas -/

/-- The index found by `findIdx?` satisfies the predicate. -/
theorem tier_of_findIdx?_some {values : List ValueTable} {len i : Nat}
    (h : values.findIdx? (fun t => decide (len ≤ t.value_size)) = some i) :
    len ≤ (values.getD i ValueTable.empty).value_size ∧
      ∀ j < i, ¬ len ≤ (values.getD j ValueTable.empty).value_size := by
  rw [List.findIdx?_eq_some_iff_findIdx_eq] at h
  obtain ⟨hlen, hfind⟩ := h
  rw [List.findIdx_eq hlen] at hfind
  obtain ⟨hp, hprev⟩ := hfind
  refine ⟨?_, ?_⟩
  · rw [List.getD_eq_getElem _ _ hlen]
    exact of_decide_eq_true hp
  · intro j hj
    have hjl : j < values.length := lt_trans hj hlen
    rw [List.getD_eq_getElem _ _ hjl]
    exact of_decide_eq_false (hprev j hj)

/-- When `findIdx?` fails, no element satisfies the predicate. -/
theorem tier_of_findIdx?_none {values : List ValueTable} {len : Nat}
    (h : values.findIdx? (fun t => decide (len ≤ t.value_size)) = none) :
    ∀ j < values.length, ¬ len ≤ (values.getD j ValueTable.empty).value_size := by
  rw [List.findIdx?_eq_none_iff] at h
  intro j hj
  rw [List.getD_eq_getElem _ _ hj]
  exact of_decide_eq_false (h _ (List.getElem_mem hj))

/-! ## C3: the compression decision -/

/-- C3: `compress_internal` attempts compression only when the value length
exceeds the threshold, keeps the compressed bytes only when strictly shorter
than the original, and chooses the smallest tier whose `value_size` is at
least the chosen length, falling back to the last (blob) tier when no tier
fits. -/
theorem claim_C3_compression_decision (compression : Compress) (key : Key)
    (value : Value) (tables : Tables) (res : Option Value) (tier : Nat)
    (h : Column.compress_internal compression key value tables = (res, tier)) :
    (value.length ≤ compression.treshold → res = none) ∧
    (∀ cv, res = some cv →
      cv = compression.compress value ∧ cv.length < value.length) ∧
    (compression.treshold < value.length →
      (compression.compress value).length < value.length →
      res = some (compression.compress value)) ∧
    (((res.map List.length).getD value.length ≤
        (tables.value.getD tier ValueTable.empty).value_size ∧
      ∀ j < tier, ¬ (res.map List.length).getD value.length ≤
        (tables.value.getD j ValueTable.empty).value_size) ∨
     ((∀ j < tables.value.length, ¬ (res.map List.length).getD value.length ≤
        (tables.value.getD j ValueTable.empty).value_size) ∧
      tier = tables.value.length - 1)) := by
  unfold Column.compress_internal at h
  by_cases hthr : compression.treshold < value.length
  · rw [if_pos hthr] at h
    by_cases hshort : (compression.compress value).length < value.length
    · rw [if_pos hshort] at h
      dsimp only at h
      rcases hf : tables.value.findIdx?
          (fun t => decide ((compression.compress value).length ≤ t.value_size)) with _ | i
      · rw [hf] at h
        injection h with hres htier
        subst hres htier
        refine ⟨fun hle => absurd hthr (not_lt.mpr hle), ?_, fun _ _ => rfl, ?_⟩
        · intro cv hcv
          cases hcv
          exact ⟨rfl, hshort⟩
        · exact Or.inr ⟨tier_of_findIdx?_none hf, rfl⟩
      · rw [hf] at h
        injection h with hres htier
        subst hres htier
        refine ⟨fun hle => absurd hthr (not_lt.mpr hle), ?_, fun _ _ => rfl, ?_⟩
        · intro cv hcv
          cases hcv
          exact ⟨rfl, hshort⟩
        · exact Or.inl (tier_of_findIdx?_some hf)
    · rw [if_neg hshort] at h
      dsimp only at h
      rcases hf : tables.value.findIdx?
          (fun t => decide (value.length ≤ t.value_size)) with _ | i
      · rw [hf] at h
        injection h with hres htier
        subst hres htier
        exact ⟨fun _ => rfl, fun cv hcv => Option.noConfusion hcv,
          fun _ hs => absurd hs hshort, Or.inr ⟨tier_of_findIdx?_none hf, rfl⟩⟩
      · rw [hf] at h
        injection h with hres htier
        subst hres htier
        exact ⟨fun _ => rfl, fun cv hcv => Option.noConfusion hcv,
          fun _ hs => absurd hs hshort, Or.inl (tier_of_findIdx?_some hf)⟩
  · rw [if_neg hthr] at h
    dsimp only at h
    rcases hf : tables.value.findIdx?
        (fun t => decide (value.length ≤ t.value_size)) with _ | i
    · rw [hf] at h
      injection h with hres htier
      subst hres htier
      exact ⟨fun _ => rfl, fun cv hcv => Option.noConfusion hcv,
        fun hs => absurd hs hthr, Or.inr ⟨tier_of_findIdx?_none hf, rfl⟩⟩
    · rw [hf] at h
      injection h with hres htier
      subst hres htier
      exact ⟨fun _ => rfl, fun cv hcv => Option.noConfusion hcv,
        fun hs => absurd hs hthr, Or.inl (tier_of_findIdx?_some hf)⟩

/-- Witness for C3 at a concrete input: a 3-byte value, threshold 2, a codec
that shrinks to one byte, and tiers of sizes 0 and 4. -/
theorem claim_C3_witness :
    Column.compress_internal ⟨2, fun _ => [7], fun v => v⟩ 0 [1, 2, 3]
      { index := IndexTable.create_new ⟨0, 16⟩ 64,
        value := [⟨0, []⟩, ⟨4, []⟩] } = (some [7], 1) ∧
    ((3 : Nat) ≤ 2 → (some [7] : Option Value) = none) := by
  have h := claim_C3_compression_decision ⟨2, fun _ => [7], fun v => v⟩ 0 [1, 2, 3]
    { index := IndexTable.create_new ⟨0, 16⟩ 64, value := [⟨0, []⟩, ⟨4, []⟩] }
    (some [7]) 1 (by rfl)
  exact ⟨rfl, h.1⟩

/-! ## C10: key hashing -/

/-- C10: for uniform-key columns, `hash` copies the first 32 bytes of the
input verbatim and panics (modelled as `none`) exactly when the input is
shorter than 32 bytes; for non-uniform columns it is total for inputs of any
length, hashing with the salt as BLAKE2b key when one is present and the
empty key otherwise. -/
theorem claim_C10_hash_totality (c : Column)
    (blake : List Nat → List Nat → List Nat) (input : List Nat) :
    (c.uniform_keys = true →
      (c.hash blake input = none ↔ input.length < 32) ∧
      (32 ≤ input.length →
        c.hash blake input = some (Column.bytesToNat (input.take 32)))) ∧
    (c.uniform_keys = false →
      c.hash blake input = some (Column.bytesToNat (blake (c.salt.getD []) input))) := by
  unfold Column.hash
  constructor
  · intro hu
    rw [hu]
    constructor
    · by_cases hlen : 32 ≤ input.length
      · rw [if_pos hlen]
        simp [Nat.not_lt.mpr hlen]
      · rw [if_neg hlen]
        simp [Nat.lt_of_not_le hlen]
    · intro hlen
      rw [if_pos hlen]
      simp
  · intro hu
    rw [hu]
    cases c.salt <;> simp

/-- Witness for C10: a uniform column rejects a 2-byte input and copies the
prefix of a 33-byte input; a non-uniform column accepts a 2-byte input. -/
theorem claim_C10_witness :
    ({ tables := { index := IndexTable.create_new ⟨0, 16⟩ 64, value := [] },
       reindex := { queue := [], progress := 0 }, preimage := false,
       uniform_keys := true, collect_stats := false, ref_counted := false,
       salt := none, stats := ColumnStats.emptyStats,
       compression := ⟨0, id, id⟩, db_version := 4 : Column }.hash
        (fun _ d => d) [1, 2] = none) ∧
    ({ tables := { index := IndexTable.create_new ⟨0, 16⟩ 64, value := [] },
       reindex := { queue := [], progress := 0 }, preimage := false,
       uniform_keys := false, collect_stats := false, ref_counted := false,
       salt := none, stats := ColumnStats.emptyStats,
       compression := ⟨0, id, id⟩, db_version := 4 : Column }.hash
        (fun _ d => d) [1, 2] = some (Column.bytesToNat [1, 2])) := by
  constructor
  · exact ((claim_C10_hash_totality _ (fun _ d => d) [1, 2]).1 rfl).1.mpr (by decide)
  · exact (claim_C10_hash_totality _ (fun _ d => d) [1, 2]).2 rfl

/-! ## C7: preimage columns do not permit replace -/

/-- C7: on a preimage, non-ref-counted column, `write_plan` with a value for
a key that is already present returns `Skipped`, emits no records, and leaves
the column (hence the first stored value) unchanged. -/
theorem claim_C7_preimage_immutability (fuel : Nat) (c : Column) (key : Key)
    (val : Value) (found : IndexTableId × Nat × Nat × Address)
    (hpre : c.preimage = true) (hrc : c.ref_counted = false)
    (hfound : Column.search_all_indexes key c.tables c.reindex = some found) :
    Column.write_plan (fuel + 1) c key (some val) =
      some (PlanOutcome.Skipped, c, []) := by
  obtain ⟨tid, sub, tier, addr⟩ := found
  simp only [Column.write_plan, hfound, hrc, hpre]
  simp

/-! ## C8: deleting an absent key -/

/-- C8: for a key absent from all indexes, `write_plan` with no value returns
`Skipped`, emits no value-table or index records, and leaves the column
unchanged except for a `remove_miss` statistic recorded exactly when stats
collection is enabled. -/
theorem claim_C8_delete_absent (fuel : Nat) (c : Column) (key : Key)
    (hmiss : Column.search_all_indexes key c.tables c.reindex = none) :
    (c.collect_stats = false →
      Column.write_plan (fuel + 1) c key none = some (PlanOutcome.Skipped, c, [])) ∧
    (c.collect_stats = true →
      Column.write_plan (fuel + 1) c key none =
        some (PlanOutcome.Skipped,
          { c with stats := c.stats.add_remove_miss }, [])) := by
  constructor
  · intro hcs
    simp only [Column.write_plan, hmiss]
    simp [hcs]
  · intro hcs
    simp only [Column.write_plan, hmiss]
    simp [hcs]

/-! ## Concrete fixtures for witnesses -/

/-- Build a column with the given flags, current index, queue and tiers
(identity codec, no salt, fresh stats). -/
def mkColumn (pre rc cs : Bool) (index : IndexTable) (queue : List IndexTable)
    (values : List ValueTable) : Column :=
  { tables := { index := index, value := values },
    reindex := { queue := queue, progress := 0 },
    preimage := pre, uniform_keys := false, collect_stats := cs,
    ref_counted := rc, salt := none, stats := ColumnStats.emptyStats,
    compression := ⟨0, id, id⟩, db_version := 4 }

/-- A 16-bit index whose every chunk holds the single entry `(0, tier 0)`. -/
def idxOne : IndexTable :=
  { id := ⟨0, 16⟩, chunk_cap := 64, chunks := fun _ => [some ⟨0, 0⟩] }

/-- A one-slot value table holding key `0` with payload `[9]`. -/
def vtOne : ValueTable :=
  { value_size := 8,
    slots := [some { key := 0, value := [9], rc := 1, compressed := false }] }

/-- Witness for C7: inserting a second value under key `0` of a preimage
column that already stores `[9]` is skipped and changes nothing. -/
theorem claim_C7_witness :
    Column.write_plan 1 (mkColumn true false false idxOne [] [vtOne]) 0 (some [3]) =
      some (PlanOutcome.Skipped, mkColumn true false false idxOne [] [vtOne], []) :=
  claim_C7_preimage_immutability 0 _ 0 [3] (⟨0, 16⟩, 0, 0, ⟨0, 0⟩) rfl rfl (by decide)

/-- Witness for C8: deleting key `5`, absent from a fresh column, is skipped
and changes nothing. -/
theorem claim_C8_witness :
    Column.write_plan 1
      (mkColumn false false false (IndexTable.create_new ⟨0, 16⟩ 64) [] [ValueTable.empty])
      5 none =
      some (PlanOutcome.Skipped,
        mkColumn false false false (IndexTable.create_new ⟨0, 16⟩ 64) [] [ValueTable.empty], []) :=
  (claim_C8_delete_absent 0 _ 5 (by decide)).1 rfl

/-! ## C6: validate_plan tolerates an unknown index -/

/-- C6: `validate_plan` on an `InsertIndex` record whose table is neither the
current index nor any queued one triggers a reindex and retries the same
record instead of failing; records for a known index, and value records, are
delegated to the matching table. -/
theorem claim_C6_validate_plan_recovery (fuel : Nat) (c : Column)
    (tid : IndexTableId) (vtid : ValueTableId) :
    (c.tables.index.id ≠ tid → (∀ t ∈ c.reindex.queue, t.id ≠ tid) →
      Column.validate_plan (fuel + 1) c (LogAction.insertIndex tid) =
        Column.validate_plan fuel (Column.trigger_reindex c)
          (LogAction.insertIndex tid)) ∧
    (c.tables.index.id = tid →
      Column.validate_plan (fuel + 1) c (LogAction.insertIndex tid) =
        some (c, ValidateOutcome.delegatedIndex tid)) ∧
    (c.tables.index.id ≠ tid → tid ∈ c.reindex.queue.map IndexTable.id →
      Column.validate_plan (fuel + 1) c (LogAction.insertIndex tid) =
        some (c, ValidateOutcome.delegatedIndex tid)) ∧
    (vtid.size_tier < c.tables.value.length →
      Column.validate_plan (fuel + 1) c (LogAction.insertValue vtid) =
        some (c, ValidateOutcome.delegatedValue vtid.size_tier)) := by
  refine ⟨?_, ?_, ?_, ?_⟩
  · intro hcur hqueue
    have hfind : c.reindex.queue.find? (fun r => r.id = tid) = none := by
      rw [List.find?_eq_none]
      intro t ht
      simpa using hqueue t ht
    simp only [Column.validate_plan]
    rw [if_neg hcur, hfind]
  · intro hcur
    simp only [Column.validate_plan]
    rw [if_pos hcur]
  · intro hcur hmem
    rw [List.mem_map] at hmem
    obtain ⟨t, ht, htid⟩ := hmem
    have hsome : (c.reindex.queue.find? (fun r => r.id = tid)).isSome := by
      rw [List.find?_isSome]
      exact ⟨t, ht, by simp [htid]⟩
    obtain ⟨u, hu⟩ := Option.isSome_iff_exists.mp hsome
    have huid : u.id = tid := by simpa using List.find?_some hu
    simp only [Column.validate_plan]
    rw [if_neg hcur, hu]
    dsimp only
    rw [huid]
  · intro hlt
    simp only [Column.validate_plan]
    rw [if_pos hlt]

/-- Witness for C6: an `InsertIndex` record for the unknown id `(0, 20)` on a
fresh column makes `validate_plan` retry after a reindex trigger, and a tier-0
value record is delegated. -/
theorem claim_C6_witness :
    (Column.validate_plan 2
        (mkColumn false false false (IndexTable.create_new ⟨0, 16⟩ 64) [] [ValueTable.empty])
        (LogAction.insertIndex ⟨0, 20⟩) =
      Column.validate_plan 1
        (Column.trigger_reindex
          (mkColumn false false false (IndexTable.create_new ⟨0, 16⟩ 64) [] [ValueTable.empty]))
        (LogAction.insertIndex ⟨0, 20⟩)) ∧
    (Column.validate_plan 2
        (mkColumn false false false (IndexTable.create_new ⟨0, 16⟩ 64) [] [ValueTable.empty])
        (LogAction.insertValue ⟨0, 0⟩) =
      some (mkColumn false false false (IndexTable.create_new ⟨0, 16⟩ 64) [] [ValueTable.empty],
        ValidateOutcome.delegatedValue 0)) := by
  constructor
  · exact (claim_C6_validate_plan_recovery 1 _ ⟨0, 20⟩ ⟨0, 0⟩).1 (by decide) (by simp [mkColumn])
  · exact (claim_C6_validate_plan_recovery 1 _ ⟨0, 20⟩ ⟨0, 0⟩).2.2.2 (by decide)

/-! ## C4: one current index; queued indexes have smaller bits -/

/-- The spec's invariant 1: every queued index has strictly smaller
`index_bits` than the (single) current index. -/
def reindexOrdered (c : Column) : Prop :=
  ∀ t ∈ c.reindex.queue, t.id.index_bits < c.tables.index.id.index_bits

/-- Behaviour of the `open_index` scan loop: the top is stable once found and
bounds everything that follows it; when no table is found the accumulator is
returned unchanged. -/
theorem open_index_go_spec (disk : Nat → Option IndexTable)
    (hwf : ∀ b t, disk b = some t → t.id.index_bits = b) :
    ∀ (L : List Nat) (top : Option IndexTable) (queue : List IndexTable),
    (top = none → queue = []) →
    (∀ t ∈ queue, ∀ u, top = some u → t.id.index_bits < u.id.index_bits) →
    (∀ b ∈ L, ∀ u, top = some u → b < u.id.index_bits) →
    List.Pairwise (fun a b => b < a) L →
    (∀ t ∈ (Column.open_index_go disk top queue L).2, ∀ u,
        (Column.open_index_go disk top queue L).1 = some u →
        t.id.index_bits < u.id.index_bits) ∧
    (∀ u, top = some u → (Column.open_index_go disk top queue L).1 = some u) ∧
    ((Column.open_index_go disk top queue L).1 = none →
      (Column.open_index_go disk top queue L).2 = queue ∧ ∀ b ∈ L, disk b = none) ∧
    (∀ b ∈ L, (disk b).isSome → ∀ u,
        (Column.open_index_go disk top queue L).1 = some u →
        b ≤ u.id.index_bits) := by
  intro L
  induction L with
  | nil =>
    intro top queue _ h1 _ _
    exact ⟨fun t ht u hu => h1 t ht u hu, fun u hu => hu, fun _ => ⟨rfl, by simp⟩, by simp⟩
  | cons b rest ih =>
    intro top queue h0 h1 h2 hpw
    rcases hpw with _ | ⟨hb, hrest⟩
    cases hdb : disk b with
    | none =>
      have hrec := ih top queue h0 h1 (fun b' hb' => h2 b' (List.mem_cons_of_mem _ hb')) hrest
      simp only [Column.open_index_go, hdb]
      refine ⟨hrec.1, hrec.2.1, ?_, ?_⟩
      · intro hnone
        refine ⟨(hrec.2.2.1 hnone).1, ?_⟩
        intro b' hb'
        rcases List.mem_cons.mp hb' with rfl | hmem
        · exact hdb
        · exact (hrec.2.2.1 hnone).2 b' hmem
      · intro b' hb' hsome u hu
        rcases List.mem_cons.mp hb' with rfl | hmem
        · rw [hdb] at hsome
          exact absurd hsome (by simp)
        · exact hrec.2.2.2 b' hmem hsome u hu
    | some t =>
      have htb : t.id.index_bits = b := hwf b t hdb
      cases top with
      | none =>
        have hq : queue = [] := h0 rfl
        subst hq
        have hrec := ih (some t) []
          (fun h => Option.noConfusion h) (by simp)
          (fun b' hb' u hu => by
            rw [← Option.some.inj hu, htb]
            exact hb b' hb')
          hrest
        simp only [Column.open_index_go, hdb]
        refine ⟨hrec.1, fun u hu => Option.noConfusion hu, ?_, ?_⟩
        · intro hnone
          exact absurd (hrec.2.1 t rfl) (by rw [hnone]; simp)
        · intro b' hb' hsome u hu
          rcases List.mem_cons.mp hb' with rfl | hmem
          · have hstable := hrec.2.1 t rfl
            rw [hstable] at hu
            rw [← Option.some.inj hu]
            exact htb.symm.le
          · exact hrec.2.2.2 b' hmem hsome u hu
      | some tp =>
        have hrec := ih (some tp) (t :: queue)
          (fun h => Option.noConfusion h)
          (fun q hq u hu => by
            rw [← Option.some.inj hu]
            rcases List.mem_cons.mp hq with rfl | hmem
            · rw [htb]
              exact h2 b (List.mem_cons_self _ _) tp rfl
            · exact h1 q hmem tp rfl)
          (fun b' hb' u hu => h2 b' (List.mem_cons_of_mem _ hb') u hu)
          hrest
        simp only [Column.open_index_go, hdb]
        refine ⟨hrec.1, hrec.2.1, ?_, ?_⟩
        · intro hnone
          exact absurd (hrec.2.1 tp rfl) (by rw [hnone]; simp)
        · intro b' hb' hsome u hu
          rcases List.mem_cons.mp hb' with hbb | hmem
          · have hstable := hrec.2.1 tp rfl
            rw [hstable] at hu
            rw [← Option.some.inj hu, hbb]
            exact le_of_lt (h2 b (List.mem_cons_self _ _) tp rfl)
          · exact hrec.2.2.2 b' hmem hsome u hu

/-- `descending_bits` runs from 64 down to 16 and is strictly descending. -/
theorem descending_bits_pairwise :
    List.Pairwise (fun a b => b < a) Column.descending_bits := by
  rw [Column.descending_bits, List.pairwise_reverse]
  have h := List.pairwise_lt_range' START_BITS 49
  exact h.imp (fun h => h)

/-- C4: a reindex trigger makes the fresh index with `index_bits + 1` current
and enqueues the displaced index at the back, preserving the invariant that
every queued index has strictly smaller `index_bits` than the current one;
`open_index` establishes the same invariant, making the largest on-disk index
current and queuing the smaller ones. -/
theorem claim_C4_current_index_invariant (c : Column) (col : Nat)
    (disk : Nat → Option IndexTable)
    (hwf : ∀ b t, disk b = some t → t.id.index_bits = b) :
    ((Column.trigger_reindex c).tables.index.id =
        ⟨c.tables.index.id.col, c.tables.index.id.index_bits + 1⟩ ∧
     (Column.trigger_reindex c).reindex.queue =
        c.reindex.queue ++ [c.tables.index]) ∧
    (reindexOrdered c → reindexOrdered (Column.trigger_reindex c)) ∧
    (∀ t ∈ (Column.open_index col disk).2,
        t.id.index_bits < (Column.open_index col disk).1.id.index_bits) ∧
    (∀ b, START_BITS ≤ b → b < 65 → (disk b).isSome →
        b ≤ (Column.open_index col disk).1.id.index_bits) := by
  have hgo := open_index_go_spec disk hwf Column.descending_bits none []
    (fun _ => rfl) (by simp) (by simp) descending_bits_pairwise
  have hmem : ∀ b, START_BITS ≤ b → b < 65 → b ∈ Column.descending_bits := by
    intro b h1 h2
    rw [Column.descending_bits, List.mem_reverse, List.mem_range'_1]
    refine ⟨h1, ?_⟩
    unfold START_BITS
    omega
  refine ⟨⟨rfl, rfl⟩, ?_, ?_, ?_⟩
  · intro h t ht
    simp only [Column.trigger_reindex] at ht ⊢
    rcases List.mem_append.mp ht with hq | hq
    · exact lt_trans (h t hq) (Nat.lt_succ_self _)
    · rw [List.mem_singleton] at hq
      subst hq
      exact Nat.lt_succ_self _
  · intro t ht
    unfold Column.open_index at ht ⊢
    dsimp only at ht ⊢
    cases htop : (Column.open_index_go disk none [] Column.descending_bits).1 with
    | none =>
      rw [htop] at ht
      dsimp only at ht
      rw [(hgo.2.2.1 htop).1] at ht
      exact absurd ht (List.not_mem_nil t)
    | some u =>
      rw [htop] at ht
      dsimp only at ht ⊢
      exact hgo.1 t ht u htop
  · intro b h1 h2 hsome
    unfold Column.open_index
    dsimp only
    cases htop : (Column.open_index_go disk none [] Column.descending_bits).1 with
    | none =>
      exfalso
      have hdb := (hgo.2.2.1 htop).2 b (hmem b h1 h2)
      rw [hdb] at hsome
      exact absurd hsome (by simp)
    | some u =>
      dsimp only
      exact hgo.2.2.2 b (hmem b h1 h2) hsome u htop

/-- A concrete on-disk state with index files at 17 and 18 bits. -/
def diskW : Nat → Option IndexTable := fun b =>
  if b = 18 then some { id := ⟨0, 18⟩, chunk_cap := 64, chunks := fun _ => [] }
  else if b = 17 then some { id := ⟨0, 17⟩, chunk_cap := 64, chunks := fun _ => [] }
  else none

/-- Witness for C4: triggering a reindex on a fresh 16-bit column makes a
17-bit index current, and opening a disk holding 17- and 18-bit files makes
an index of at least 18 bits current. -/
theorem claim_C4_witness :
    (Column.trigger_reindex
        (mkColumn false false false (IndexTable.create_new ⟨0, 16⟩ 64) [] [])).tables.index.id =
      ⟨0, 17⟩ ∧
    18 ≤ (Column.open_index 0 diskW).1.id.index_bits := by
  have hwf : ∀ b t, diskW b = some t → t.id.index_bits = b := by
    intro b t h
    unfold diskW at h
    split_ifs at h with h1 h2
    · subst h1
      rw [← Option.some.inj h]
    · subst h2
      rw [← Option.some.inj h]
  have h := claim_C4_current_index_invariant
    (mkColumn false false false (IndexTable.create_new ⟨0, 16⟩ 64) [] []) 0 diskW hwf
  exact ⟨h.1.1, h.2.2.2 18 (by decide) (by decide) (by decide)⟩

/-! ## C1: get probes current index then the queue, decompressing payloads -/

/-- Any payload produced by the probe loop comes from a value-table slot whose
full key matches, decompressed exactly when the slot's flag is set. -/
theorem get_in_index_loop_payload (c : Column) (key : Key) (index : IndexTable)
    (tables : Tables) :
    ∀ (fuel sub tier : Nat) (v : Value),
    Column.get_in_index_loop c key index tables fuel sub = some (tier, v) →
    ∃ off slot, (tables.value.getD tier ValueTable.empty).slot_at off = some slot ∧
      slot.key = key ∧
      v = (if slot.compressed then c.decompress slot.value else slot.value) := by
  intro fuel
  induction fuel with
  | zero => intro sub tier v h; exact Option.noConfusion h
  | succ f ih =>
    intro sub tier v h
    rw [Column.get_in_index_loop] at h
    rcases hga : index.get key sub with ⟨entry, si⟩
    rw [hga] at h
    cases entry with
    | none => exact Option.noConfusion h
    | some address =>
      dsimp only at h
      rcases hvg : ValueTable.get (tables.value.getD address.size_tier ValueTable.empty)
          key address.offset with _ | vc
      · rw [hvg] at h
        exact ih (si + 1) tier v h
      · obtain ⟨value, compressed⟩ := vc
        rw [hvg] at h
        dsimp only at h
        injection h with h1
        injection h1 with htier hv
        subst htier
        subst hv
        unfold ValueTable.get at hvg
        rcases hs : (tables.value.getD address.size_tier ValueTable.empty).slot_at
            address.offset with _ | slot
        · rw [hs] at hvg
          exact Option.noConfusion hvg
        · rw [hs] at hvg
          by_cases hk : slot.key = key
          · simp only [hk, decide_True, ite_true] at hvg
            injection hvg with hvg1
            injection hvg1 with hval hcomp
            subst hval
            subst hcomp
            exact ⟨address.offset, slot, hs, hk, rfl⟩
          · simp [hk] at hvg

/-- Payload provenance for `get_in_index`. -/
theorem get_in_index_payload (c : Column) (key : Key) (index : IndexTable)
    (tables : Tables) (tier : Nat) (v : Value)
    (h : c.get_in_index key index tables = some (tier, v)) :
    ∃ off slot, (tables.value.getD tier ValueTable.empty).slot_at off = some slot ∧
      slot.key = key ∧
      v = (if slot.compressed then c.decompress slot.value else slot.value) := by
  unfold Column.get_in_index at h
  exact get_in_index_loop_payload c key index tables _ 0 tier v h

/-- C1: `get` probes the current index first, then each reindex-queue index
in order; the first entry that resolves through a value table produces the
stored payload, decompressed exactly when the slot's compressed flag is set;
when no index resolves the key the result is empty. -/
theorem claim_C1_get_probe_order (c : Column) (key : Key) :
    (∀ tier v, c.get_in_index key c.tables.index c.tables = some (tier, v) →
      (c.get key).1 = some v) ∧
    (∀ q1 t q2 tier v, c.reindex.queue = q1 ++ t :: q2 →
      c.get_in_index key c.tables.index c.tables = none →
      (∀ r ∈ q1, c.get_in_index key r c.tables = none) →
      c.get_in_index key t c.tables = some (tier, v) →
      (c.get key).1 = some v) ∧
    (c.get_in_index key c.tables.index c.tables = none →
      (∀ r ∈ c.reindex.queue, c.get_in_index key r c.tables = none) →
      (c.get key).1 = none) ∧
    (∀ v, (c.get key).1 = some v →
      ∃ tier off slot,
        (c.tables.value.getD tier ValueTable.empty).slot_at off = some slot ∧
        slot.key = key ∧
        v = (if slot.compressed then c.decompress slot.value else slot.value)) := by
  refine ⟨?_, ?_, ?_, ?_⟩
  · intro tier v h
    simp only [Column.get, h]
  · intro q1 t q2 tier v hq hmiss hq1 hht
    have hq1' : List.findSome? (fun r => c.get_in_index key r c.tables) q1 = none :=
      List.findSome?_eq_none_iff.mpr hq1
    simp only [Column.get, hmiss, hq, List.findSome?_append, hq1',
      List.findSome?_cons, hht, Option.none_or]
  · intro hmiss hqs
    have hq' : List.findSome? (fun r => c.get_in_index key r c.tables)
        c.reindex.queue = none := List.findSome?_eq_none_iff.mpr hqs
    simp only [Column.get, hmiss, hq']
  · intro v h
    unfold Column.get at h
    rcases hcur : c.get_in_index key c.tables.index c.tables with _ | p
    · rw [hcur] at h
      dsimp only at h
      rcases hfq : List.findSome? (fun r => c.get_in_index key r c.tables)
          c.reindex.queue with _ | p
      · rw [hfq] at h
        exact Option.noConfusion h
      · rw [hfq] at h
        obtain ⟨tier0, v0⟩ := p
        dsimp only at h
        injection h with hv
        subst hv
        obtain ⟨r, _, hfr⟩ := List.exists_of_findSome?_eq_some hfq
        obtain ⟨off, slot, hs, hk, hvv⟩ := get_in_index_payload c key r c.tables tier0 v0 hfr
        exact ⟨tier0, off, slot, hs, hk, hvv⟩
    · rw [hcur] at h
      obtain ⟨tier0, v0⟩ := p
      dsimp only at h
      injection h with hv
      subst hv
      obtain ⟨off, slot, hs, hk, hvv⟩ :=
        get_in_index_payload c key c.tables.index c.tables tier0 v0 hcur
      exact ⟨tier0, off, slot, hs, hk, hvv⟩

/-- Witness for C1: with an empty current 17-bit index and a queued 16-bit
index resolving key `0` to payload `[9]`, `get` returns `[9]`. -/
theorem claim_C1_witness :
    (Column.get (mkColumn false false false (IndexTable.create_new ⟨0, 17⟩ 64)
      [idxOne] [vtOne]) 0).1 = some [9] :=
  (claim_C1_get_probe_order _ 0).2.1 [] idxOne [] 0 [9] rfl (by decide)
    (fun r hr => absurd hr (List.not_mem_nil r)) (by decide)

/-! ## C9: NeedReindex from a replace is returned directly -/

/-- An index insert that reports `NeedReindex` plans nothing. -/
theorem write_insert_plan_need_reindex (t : IndexTable) (key : Key)
    (a : Address) (s : Option Nat) :
    (t.write_insert_plan key a s).1 = PlanOutcome.NeedReindex →
    t.write_insert_plan key a s = (PlanOutcome.NeedReindex, t) := by
  unfold IndexTable.write_insert_plan
  cases s with
  | some i =>
    dsimp only
    intro h
    exact PlanOutcome.noConfusion h
  | none =>
    dsimp only
    cases hf : (t.chunks (t.key_index key)).findIdx? (fun e => e.isNone) with
    | some i =>
      dsimp only
      intro h
      exact PlanOutcome.noConfusion h
    | none =>
      dsimp only
      split_ifs with hlen
      · intro h
        exact h.elim
      · intro _
        rfl

/-- C9: when `write_plan` replaces an existing value into a different target
tier and the insert on the current index reports `NeedReindex`, that outcome
is returned directly: no reindex is triggered, no retry happens, the current
index and the queue are unchanged, and no index record is emitted.  The
trigger-and-retry behaviour applies to the fresh-insert path and to
`write_reindex_plan`, whose recursions run through `trigger_reindex`. -/
theorem claim_C9_need_reindex_paths (fuel : Nat) (c : Column) (key : Key)
    (val : Value) (address : Address) (tid : IndexTableId)
    (sub existing_tier : Nat) (addr : Address)
    (hrc : c.ref_counted = false) (hpre : c.preimage = false)
    (hcs : c.collect_stats = false) :
    (∀ cvOpt target values2 insOff vt2,
      Column.search_all_indexes key c.tables c.reindex =
        some (tid, sub, existing_tier, addr) →
      c.compress key val c.tables = (cvOpt, target) →
      existing_tier ≠ target →
      values2 = c.tables.value.set existing_tier
        ((c.tables.value.getD existing_tier ValueTable.empty).write_remove_plan addr.offset) →
      (values2.getD target ValueTable.empty).write_insert_plan key
        (cvOpt.getD val) cvOpt.isSome = (insOff, vt2) →
      (c.tables.index.write_insert_plan key ⟨insOff, target⟩
        (if tid = c.tables.index.id then some sub else none)).1 =
          PlanOutcome.NeedReindex →
      Column.write_plan (fuel + 1) c key (some val) =
        some (PlanOutcome.NeedReindex,
          { c with tables := { index := c.tables.index, value := values2.set target vt2 } },
          [PlanRecord.removeValue existing_tier addr.offset,
           PlanRecord.insertValue target key (cvOpt.getD val) cvOpt.isSome])) ∧
    (∀ cvOpt target insOff vt2,
      Column.search_all_indexes key c.tables c.reindex = none →
      c.compress key val c.tables = (cvOpt, target) →
      (c.tables.value.getD target ValueTable.empty).write_insert_plan key
        (cvOpt.getD val) cvOpt.isSome = (insOff, vt2) →
      (c.tables.index.write_insert_plan key ⟨insOff, target⟩ none).1 =
        PlanOutcome.NeedReindex →
      Column.write_plan (fuel + 1) c key (some val) =
        (match Column.write_plan fuel
            (Column.trigger_reindex { c with tables := c.tables.set_value target vt2 })
            key (some val) with
         | some (_, c2, recs) =>
           some (PlanOutcome.NeedReindex, c2,
             PlanRecord.insertValue target key (cvOpt.getD val) cvOpt.isSome :: recs)
         | none => none)) ∧
    (Column.search_index key c.tables.index c.tables = none →
      (c.tables.index.write_insert_plan key address none).1 = PlanOutcome.NeedReindex →
      Column.write_reindex_plan (fuel + 1) c key address =
        (match Column.write_reindex_plan fuel (Column.trigger_reindex c) key address with
         | some (_, c1, recs) => some (PlanOutcome.NeedReindex, c1, recs)
         | none => none)) := by
  refine ⟨?_, ?_, ?_⟩
  · intro cvOpt target values2 insOff vt2 hfound hcv htier hv2 hins hneed
    subst hv2
    have h2 := write_insert_plan_need_reindex _ _ _ _ hneed
    simp only [Column.write_plan, hfound]
    simp only [hrc, hpre, hcs, Bool.false_eq_true, if_false, Tables.set_value]
    rw [hcv]
    dsimp only
    rw [if_neg htier, hins]
    dsimp only
    rw [h2]
    simp
  · intro cvOpt target insOff vt2 hmiss hcv hins hneed
    simp only [Column.write_plan, hmiss]
    simp only [Tables.set_value]
    rw [hcv]
    dsimp only
    rw [hins]
    dsimp only
    rw [hneed]
  · intro hmiss hneed
    have hm : (Column.search_index key c.tables.index c.tables).isSome = false := by
      rw [hmiss]
      rfl
    simp only [Column.write_reindex_plan, hm, Bool.false_eq_true, if_false]
    rw [hneed]

/-- A blob-tier value table with no slots. -/
def vtBlob : ValueTable := { value_size := 100, slots := [] }

/-- A 17-bit index whose single-entry chunks are full (capacity one) and
whose entry does not resolve key `0`. -/
def idxFull : IndexTable :=
  { id := ⟨0, 17⟩, chunk_cap := 1, chunks := fun _ => [some ⟨5, 0⟩] }

/-- The C9 scenario: key `0` lives at tier 0 through the queued index, and
the replacement payload targets tier 1 while the current chunk is full. -/
def c9col : Column := mkColumn false false false idxFull [idxOne] [vtOne, vtBlob]

/-- The 9-byte replacement payload of the C9 scenario. -/
def c9val : Value := [1, 1, 1, 1, 1, 1, 1, 1, 1]

/-- Witness for C9: the replace emits only the two value-table records,
returns `NeedReindex` directly and leaves the reindex queue untouched. -/
theorem claim_C9_witness :
    (Column.write_plan 1 c9col 0 (some c9val)).map (fun r => (r.1, r.2.2)) =
      some (PlanOutcome.NeedReindex,
        [PlanRecord.removeValue 0 0, PlanRecord.insertValue 1 0 c9val false]) ∧
    (Column.write_plan 1 c9col 0 (some c9val)).map
      (fun r => r.2.1.reindex.queue.length) = some 1 := by
  have h := (claim_C9_need_reindex_paths 0 c9col 0 c9val ⟨0, 0⟩ ⟨0, 16⟩ 0 0 ⟨0, 0⟩
      rfl rfl rfl).1
    none 1
    (c9col.tables.value.set 0
      ((c9col.tables.value.getD 0 ValueTable.empty).write_remove_plan 0))
    0
    { value_size := 100,
      slots := [some { key := 0, value := c9val, rc := 1, compressed := false }] }
    (by decide) (by decide) (by decide) rfl (by decide) (by decide)
  rw [h]
  constructor <;> rfl

/-! ## C2: ref-counted columns -/

/-- The 16-bit chunk index of a key. -/
def rcKeyIdx (key : Key) : Nat := (key % 2 ^ 256) / 2 ^ (256 - 16)

/-- A 16-bit index whose chunk for `key` is `ch` and all others empty. -/
def rcIdxS (key : Key) (ch : List Entry) : IndexTable :=
  { id := ⟨0, 16⟩, chunk_cap := 64, chunks := fun i => if i = rcKeyIdx key then ch else [] }

/-- The single-tier value table of the ref-counting scenario at refcount `r`. -/
def rcVT (key : Key) (v : Value) (r : Nat) : ValueTable :=
  { value_size := 0,
    slots := [some { key := key, value := v, rc := r, compressed := false }] }

/-- The ref-counted column after the key has been inserted (refcount `r`). -/
def rcState (key : Key) (v : Value) (r : Nat) : Column :=
  mkColumn false true false (rcIdxS key [some ⟨0, 0⟩]) [] [rcVT key v r]

/-- The ref-counted column after the last delete freed the slot. -/
def rcDepleted (key : Key) : Column :=
  mkColumn false true false (rcIdxS key [none]) [] [{ value_size := 0, slots := [none] }]

/-- The pristine ref-counted column. -/
def rcEmpty : Column :=
  mkColumn false true false (IndexTable.create_new ⟨0, 16⟩ 64) []
    [{ value_size := 0, slots := [] }]

theorem rcIdxS_key_index (key k2 : Key) (ch : List Entry) :
    (rcIdxS key ch).key_index k2 = rcKeyIdx k2 := rfl

theorem rcIdxS_chunks_self (key : Key) (ch : List Entry) :
    (rcIdxS key ch).chunks (rcKeyIdx key) = ch := by
  simp [rcIdxS]

theorem rcIdxS_get_entry (key : Key) (a : Address) :
    (rcIdxS key [some a]).get key 0 = (some a, 0) := by
  unfold IndexTable.get
  rw [rcIdxS_key_index, rcIdxS_chunks_self]
  rfl

theorem rcIdxS_get_hole (key : Key) :
    (rcIdxS key [none]).get key 0 = (none, 1) := by
  unfold IndexTable.get
  rw [rcIdxS_key_index, rcIdxS_chunks_self]
  rfl

theorem rc_has_key (key : Key) (v : Value) (r : Nat) :
    ValueTable.has_key_at (rcVT key v r) 0 key = true := by
  simp [ValueTable.has_key_at, ValueTable.slot_at, rcVT]

/-- A probe that confirms on the first candidate resolves the search. -/
theorem search_index_eq_some (key : Key) (index : IndexTable) (tables : Tables)
    (addr : Address) (si : Nat)
    (h1 : index.get key 0 = (some addr, si))
    (h2 : ValueTable.has_key_at (tables.value.getD addr.size_tier ValueTable.empty)
      addr.offset key = true) :
    Column.search_index key index tables = some (index.id, si, addr.size_tier, addr) := by
  unfold Column.search_index
  rw [Column.search_index_loop, h1]
  dsimp only
  rw [h2]
  rfl

/-- A probe whose first step terminates the chain finds nothing. -/
theorem search_index_eq_none (key : Key) (index : IndexTable) (tables : Tables)
    (si : Nat) (h1 : index.get key 0 = ((none : Entry), si)) :
    Column.search_index key index tables = none := by
  unfold Column.search_index
  rw [Column.search_index_loop, h1]
  rfl

/-- With an empty queue, `search_all_indexes` is the current-index search. -/
theorem search_all_no_queue (key : Key) (tables : Tables) (progress : Nat) :
    Column.search_all_indexes key tables { queue := [], progress := progress } =
      Column.search_index key tables.index tables := by
  unfold Column.search_all_indexes
  cases h : Column.search_index key tables.index tables <;> simp [h]

theorem rc_vt_get (key : Key) (v : Value) (r : Nat) :
    ValueTable.get (rcVT key v r) key 0 = some (v, false) := by
  simp [ValueTable.get, ValueTable.slot_at, rcVT]

theorem rc_search_state (key : Key) (v : Value) (r : Nat) :
    Column.search_all_indexes key (rcState key v r).tables (rcState key v r).reindex =
      some (⟨0, 16⟩, 0, 0, ⟨0, 0⟩) := by
  rw [show (rcState key v r).reindex = { queue := [], progress := 0 } from rfl,
    search_all_no_queue]
  exact search_index_eq_some key _ _ ⟨0, 0⟩ 0 (rcIdxS_get_entry key ⟨0, 0⟩)
    (rc_has_key key v r)

theorem rc_search_depleted (key : Key) :
    Column.search_all_indexes key (rcDepleted key).tables (rcDepleted key).reindex =
      none := by
  rw [show (rcDepleted key).reindex = { queue := [], progress := 0 } from rfl,
    search_all_no_queue]
  exact search_index_eq_none key _ _ 1 (rcIdxS_get_hole key)

theorem rc_search_empty (key : Key) :
    Column.search_all_indexes key rcEmpty.tables rcEmpty.reindex = none := rfl

theorem rc_get_state (key : Key) (v : Value) (r : Nat) :
    ((rcState key v r).get key).1 = some v := by
  have h1 : (rcState key v r).get_in_index key (rcState key v r).tables.index
      (rcState key v r).tables = some (0, v) := by
    unfold Column.get_in_index
    rw [Column.get_in_index_loop,
      show (rcState key v r).tables.index.get key 0 = (some ⟨0, 0⟩, 0) from
        rcIdxS_get_entry key ⟨0, 0⟩]
    dsimp only
    rw [show ValueTable.get ((rcState key v r).tables.value.getD 0 ValueTable.empty)
        key 0 = some (v, false) from rc_vt_get key v r]
    rfl
  unfold Column.get
  rw [h1]

theorem rc_get_depleted (key : Key) :
    ((rcDepleted key).get key).1 = none := by
  have h1 : (rcDepleted key).get_in_index key (rcDepleted key).tables.index
      (rcDepleted key).tables = none := by
    unfold Column.get_in_index
    rw [Column.get_in_index_loop,
      show (rcDepleted key).tables.index.get key 0 = (none, 1) from rcIdxS_get_hole key]
  unfold Column.get
  rw [h1]
  rfl

theorem rc_get_empty (key : Key) : (rcEmpty.get key).1 = none := rfl

theorem rc_compress (key : Key) (v : Value) (index : IndexTable)
    (slots : List (Option ValueSlot)) :
    Column.compress_internal ⟨0, id, id⟩ key v
      { index := index, value := [{ value_size := 0, slots := slots }] } =
      (none, 0) := by
  unfold Column.compress_internal
  by_cases hl : 0 < v.length
  · have hne : ¬ v.length ≤ 0 := by omega
    simp [hl, hne, List.findIdx?_cons, List.findIdx?_nil]
  · have h0 : v.length ≤ 0 := by omega
    simp [hl, h0, List.findIdx?_cons, List.findIdx?_nil]

theorem rc_insert_fresh (fuel : Nat) (key : Key) (v : Value) :
    Column.write_plan (fuel + 1) rcEmpty key (some v) =
      some (PlanOutcome.Written, rcState key v 1,
        [PlanRecord.insertValue 0 key v false,
         PlanRecord.insertIndex ⟨0, 16⟩ key ⟨0, 0⟩ none]) := by
  have hcv : Column.compress rcEmpty key v rcEmpty.tables = (none, 0) :=
    rc_compress key v _ _
  simp only [Column.write_plan, rc_search_empty]
  rw [hcv]
  rfl

theorem rc_insert_again (fuel : Nat) (key : Key) (v w : Value) (r : Nat) :
    Column.write_plan (fuel + 1) (rcState key v r) key (some w) =
      some (PlanOutcome.Written, rcState key v (r + 1), [PlanRecord.incRef 0 0]) := by
  simp only [Column.write_plan, rc_search_state]
  rfl

theorem rc_delete_step (fuel : Nat) (key : Key) (v : Value) (r : Nat) :
    Column.write_plan (fuel + 1) (rcState key v (r + 2)) key none =
      some (PlanOutcome.Written, rcState key v (r + 1), [PlanRecord.decRef 0 0]) := by
  simp only [Column.write_plan, rc_search_state]
  rfl

/-- Index tables agreeing on every field are equal. -/
theorem IndexTable.eq_of_fields (t1 t2 : IndexTable) (h1 : t1.id = t2.id)
    (h2 : t1.chunk_cap = t2.chunk_cap) (h3 : ∀ i, t1.chunks i = t2.chunks i) :
    t1 = t2 := by
  cases t1
  cases t2
  dsimp only at h1 h2 h3
  subst h1
  subst h2
  rw [funext h3]

theorem rc_remove_entry (key : Key) (v : Value) :
    (rcState key v 1).tables.index.write_remove_plan key 0 = rcIdxS key [none] := by
  refine IndexTable.eq_of_fields _ _ rfl rfl ?_
  intro i
  show ((rcIdxS key [some ⟨0, 0⟩]).write_remove_plan key 0).chunks i =
    (rcIdxS key [none]).chunks i
  simp only [IndexTable.write_remove_plan, IndexTable.set_chunk, rcIdxS_key_index,
    rcIdxS_chunks_self]
  by_cases hi : i = rcKeyIdx key
  · simp [hi, rcIdxS]
  · simp [hi, rcIdxS]

/-- `remove_index_entry` on the current index rewrites it in place. -/
theorem remove_index_entry_current (c : Column) (tid : IndexTableId) (key : Key)
    (sub : Nat) (h : c.tables.index.id = tid) :
    Column.remove_index_entry c tid key sub =
      { c with tables := { c.tables with
          index := c.tables.index.write_remove_plan key sub } } := by
  unfold Column.remove_index_entry
  rw [if_pos h]

theorem rc_delete_last (fuel : Nat) (key : Key) (v : Value) :
    Column.write_plan (fuel + 1) (rcState key v 1) key none =
      some (PlanOutcome.Written, rcDepleted key,
        [PlanRecord.decRef 0 0, PlanRecord.removeIndex ⟨0, 16⟩ key 0]) := by
  have hmid : Column.write_plan (fuel + 1) (rcState key v 1) key none =
      some (PlanOutcome.Written,
        { rcState key v 1 with tables :=
          { index := (rcState key v 1).tables.index.write_remove_plan key 0,
            value := [{ value_size := 0, slots := [none] }] } },
        [PlanRecord.decRef 0 0, PlanRecord.removeIndex ⟨0, 16⟩ key 0]) := by
    simp only [Column.write_plan, rc_search_state]
    rfl
  rw [hmid, rc_remove_entry key v]
  rfl

theorem rc_delete_depleted (fuel : Nat) (key : Key) :
    Column.write_plan (fuel + 1) (rcDepleted key) key none =
      some (PlanOutcome.Skipped, rcDepleted key, []) := by
  simp only [Column.write_plan, rc_search_depleted]
  rfl

theorem rc_delete_empty (fuel : Nat) (key : Key) :
    Column.write_plan (fuel + 1) rcEmpty key none =
      some (PlanOutcome.Skipped, rcEmpty, []) := by
  simp only [Column.write_plan, rc_search_empty]
  rfl

/-- Apply a planning operation `n` times, threading the column state. -/
def applyN (f : Column → Option (PlanOutcome × Column × List PlanRecord)) :
    Nat → Column → Option Column
  | 0, c => some c
  | n + 1, c =>
    match f c with
    | some r => applyN f n r.2.1
    | none => none

/-- `n` inserts of the same key (first `v`, then `w`) followed by `m`
deletes, starting from the pristine ref-counted column. -/
def runRC (key : Key) (v w : Value) (n m : Nat) : Option Column :=
  (match n with
   | 0 => some rcEmpty
   | Nat.succ k =>
     match Column.write_plan 1 rcEmpty key (some v) with
     | some r => applyN (fun c => Column.write_plan 1 c key (some w)) k r.2.1
     | none => none).bind
    (fun c => applyN (fun c2 => Column.write_plan 1 c2 key none) m c)

theorem rc_applyN_ins (key : Key) (v w : Value) :
    ∀ k r, applyN (fun c => Column.write_plan 1 c key (some w)) k (rcState key v r) =
      some (rcState key v (r + k)) := by
  intro k
  induction k with
  | zero => intro r; rfl
  | succ k ih =>
    intro r
    rw [applyN]
    have hstep : Column.write_plan 1 (rcState key v r) key (some w) =
        some (PlanOutcome.Written, rcState key v (r + 1), [PlanRecord.incRef 0 0]) :=
      rc_insert_again 0 key v w r
    rw [hstep]
    dsimp only
    rw [ih (r + 1)]
    have harith : r + 1 + k = r + (k + 1) := by omega
    rw [harith]

theorem rc_applyN_del_depleted (key : Key) :
    ∀ m, applyN (fun c => Column.write_plan 1 c key none) m (rcDepleted key) =
      some (rcDepleted key) := by
  intro m
  induction m with
  | zero => rfl
  | succ k ih =>
    rw [applyN]
    have hstep : Column.write_plan 1 (rcDepleted key) key none =
        some (PlanOutcome.Skipped, rcDepleted key, []) := rc_delete_depleted 0 key
    rw [hstep]
    exact ih

theorem rc_applyN_del_empty (key : Key) :
    ∀ m, applyN (fun c => Column.write_plan 1 c key none) m rcEmpty = some rcEmpty := by
  intro m
  induction m with
  | zero => rfl
  | succ k ih =>
    rw [applyN]
    have hstep : Column.write_plan 1 rcEmpty key none =
        some (PlanOutcome.Skipped, rcEmpty, []) := rc_delete_empty 0 key
    rw [hstep]
    exact ih

theorem rc_applyN_del (key : Key) (v : Value) :
    ∀ m r, applyN (fun c => Column.write_plan 1 c key none) m (rcState key v (r + 1)) =
      (if m ≤ r then some (rcState key v (r + 1 - m)) else some (rcDepleted key)) := by
  intro m
  induction m with
  | zero =>
    intro r
    simp [applyN]
  | succ k ih =>
    intro r
    rw [applyN]
    cases r with
    | zero =>
      have hstep : Column.write_plan 1 (rcState key v 1) key none =
          some (PlanOutcome.Written, rcDepleted key,
            [PlanRecord.decRef 0 0, PlanRecord.removeIndex ⟨0, 16⟩ key 0]) :=
        rc_delete_last 0 key v
      rw [hstep]
      dsimp only
      rw [rc_applyN_del_depleted key k]
      simp
    | succ r2 =>
      have hstep : Column.write_plan 1 (rcState key v (r2 + 2)) key none =
          some (PlanOutcome.Written, rcState key v (r2 + 1), [PlanRecord.decRef 0 0]) :=
        rc_delete_step 0 key v r2
      rw [hstep]
      dsimp only
      rw [ih r2]
      by_cases hk : k ≤ r2
      · rw [if_pos hk, if_pos (by omega : k + 1 ≤ r2 + 1)]
        have harith : r2 + 1 - k = r2 + 1 + 1 - (k + 1) := by omega
        rw [harith]
      · rw [if_neg hk, if_neg (by omega : ¬ k + 1 ≤ r2 + 1)]

theorem rc_run_eq (key : Key) (v w : Value) (n m : Nat) :
    runRC key v w n m =
      some (if m < n then rcState key v (n - m)
            else if n = 0 then rcEmpty else rcDepleted key) := by
  cases n with
  | zero =>
    unfold runRC
    dsimp only
    rw [Option.some_bind]
    rw [rc_applyN_del_empty key m]
    simp
  | succ k =>
    unfold runRC
    have hins : Column.write_plan 1 rcEmpty key (some v) =
        some (PlanOutcome.Written, rcState key v 1,
          [PlanRecord.insertValue 0 key v false,
           PlanRecord.insertIndex ⟨0, 16⟩ key ⟨0, 0⟩ none]) := rc_insert_fresh 0 key v
    rw [hins]
    dsimp only
    rw [rc_applyN_ins key v w k 1]
    rw [Option.some_bind]
    have h1k : 1 + k = k + 1 := by omega
    rw [h1k]
    rw [rc_applyN_del key v m k]
    by_cases hm : m ≤ k
    · rw [if_pos hm, if_pos (by omega : m < k + 1)]
    · rw [if_neg hm, if_neg (by omega : ¬ m < k + 1)]
      simp

/-- C2: on a ref-counted column, `write_plan` with a value for a present key
emits only an inc-ref and returns `Written`; `write_plan` with no value emits
a dec-ref and removes the index entry exactly when the refcount reaches zero;
consequently, after `n` inserts and `m` deletes of the same key from a fresh
column, `get` returns the first inserted value when `m < n`, empty when
`m = n`, and deletes beyond `n` are no-ops. -/
theorem claim_C2_ref_counted :
    (∀ (fuel : Nat) (c : Column) (key : Key) (val : Value) (tid : IndexTableId)
        (sub tier : Nat) (addr : Address),
      c.ref_counted = true →
      Column.search_all_indexes key c.tables c.reindex = some (tid, sub, tier, addr) →
      Column.write_plan (fuel + 1) c key (some val) =
        some (PlanOutcome.Written,
          { c with tables := (c.tables.set_value tier
              ((c.tables.value.getD tier ValueTable.empty).write_inc_ref addr.offset)) },
          [PlanRecord.incRef tier addr.offset])) ∧
    (∀ (fuel : Nat) (c : Column) (key : Key) (tid : IndexTableId)
        (sub tier : Nat) (addr : Address) (slot : ValueSlot),
      c.ref_counted = true →
      c.collect_stats = false →
      Column.search_all_indexes key c.tables c.reindex = some (tid, sub, tier, addr) →
      (c.tables.value.getD tier ValueTable.empty).slot_at addr.offset = some slot →
      Column.write_plan (fuel + 1) c key none =
        (if slot.rc ≤ 1 then
          some (PlanOutcome.Written,
            Column.remove_index_entry
              { c with tables := (c.tables.set_value tier
                  ((c.tables.value.getD tier ValueTable.empty).set_slot addr.offset none)) }
              tid key sub,
            [PlanRecord.decRef tier addr.offset, PlanRecord.removeIndex tid key sub])
         else
          some (PlanOutcome.Written,
            { c with tables := (c.tables.set_value tier
                ((c.tables.value.getD tier ValueTable.empty).set_slot addr.offset
                  (some { slot with rc := slot.rc - 1 }))) },
            [PlanRecord.decRef tier addr.offset]))) ∧
    (∀ (key : Key) (v w : Value) (n m : Nat),
      runRC key v w n m =
        some (if m < n then rcState key v (n - m)
              else if n = 0 then rcEmpty else rcDepleted key) ∧
      (∀ cfin, runRC key v w n m = some cfin →
        (cfin.get key).1 = (if m < n then some v else none)) ∧
      (n ≤ m → runRC key v w n m = runRC key v w n n)) := by
  refine ⟨?_, ?_, ?_⟩
  · intro fuel c key val tid sub tier addr hrc hfound
    simp only [Column.write_plan, hfound, hrc, ite_true, eq_self_iff_true]
  · intro fuel c key tid sub tier addr slot hrc hcs hfound hslot
    have hdec : (c.tables.value.getD tier ValueTable.empty).write_dec_ref addr.offset =
        (if slot.rc ≤ 1 then
          (false, (c.tables.value.getD tier ValueTable.empty).set_slot addr.offset none)
         else
          (true, (c.tables.value.getD tier ValueTable.empty).set_slot addr.offset
            (some { slot with rc := slot.rc - 1 }))) := by
      unfold ValueTable.write_dec_ref
      rw [hslot]
    simp only [Column.write_plan, hfound, hrc, hcs, ite_true, eq_self_iff_true,
      Bool.false_eq_true, if_false, ite_false]
    rw [hdec]
    by_cases hr : slot.rc ≤ 1
    · rw [if_pos hr, if_pos hr]
      simp
    · rw [if_neg hr, if_neg hr]
      simp
  · intro key v w n m
    refine ⟨rc_run_eq key v w n m, ?_, ?_⟩
    · intro cfin hc
      rw [rc_run_eq key v w n m] at hc
      injection hc with hc
      subst hc
      by_cases h1 : m < n
      · rw [if_pos h1, if_pos h1]
        exact rc_get_state key v (n - m)
      · rw [if_neg h1, if_neg h1]
        by_cases h0 : n = 0
        · rw [if_pos h0]
          exact rc_get_empty key
        · rw [if_neg h0]
          exact rc_get_depleted key
    · intro hnm
      rw [rc_run_eq key v w n m, rc_run_eq key v w n n]
      by_cases h0 : n = 0
      · subst h0
        simp
      · have h1 : ¬ m < n := by omega
        have h2 : ¬ n < n := by omega
        rw [if_neg h1, if_neg h2, if_neg h0]

/-- Witness for C2: a second insert of key `3` only inc-refs; a delete at
refcount 2 only dec-refs; two inserts followed by one delete still resolve
the original value `[5]`; deletes beyond the insert count are no-ops. -/
theorem claim_C2_witness :
    ((Column.write_plan 1 (rcState 3 [5] 1) 3 (some [6])).map
        (fun r => (r.1, r.2.2)) =
      some (PlanOutcome.Written, [PlanRecord.incRef 0 0])) ∧
    ((Column.write_plan 1 (rcState 3 [5] 2) 3 none).map
        (fun r => (r.1, r.2.2)) =
      some (PlanOutcome.Written, [PlanRecord.decRef 0 0])) ∧
    runRC 3 [5] [6] 2 1 = some (rcState 3 [5] 1) ∧
    ((rcState 3 [5] 1).get 3).1 = some [5] ∧
    runRC 3 [5] [6] 1 3 = runRC 3 [5] [6] 1 1 := by
  have ha := claim_C2_ref_counted.1 0 (rcState 3 [5] 1) 3 [6] ⟨0, 16⟩ 0 0 ⟨0, 0⟩
    rfl (by decide)
  have hb := claim_C2_ref_counted.2.1 0 (rcState 3 [5] 2) 3 ⟨0, 16⟩ 0 0 ⟨0, 0⟩
    { key := 3, value := [5], rc := 2, compressed := false } rfl rfl (by decide) rfl
  have hc := claim_C2_ref_counted.2.2 3 [5] [6] 2 1
  have hd := claim_C2_ref_counted.2.2 3 [5] [6] 1 3
  refine ⟨?_, ?_, ?_, ?_, ?_⟩
  · rw [ha]
    rfl
  · rw [hb]
    rw [if_neg (by decide)]
    rfl
  · rw [hc.1]
    rfl
  · exact hc.2.1 _ hc.1
  · exact hd.2.2 (by omega)

/-! ## C5: the reindex drain step -/

/-- Characterization of the drain loop: it consumes `k ≤ fuel` chunks,
appending every chunk's pairs, and stops either by fuel or because the
continue condition fails at the final state. -/
theorem reindex_loop_spec (source : IndexTable) :
    ∀ (f si : Nat) (plan : List (Key × Address)),
    ∃ k, k ≤ f ∧
      Column.reindex_loop source f si plan =
        (si + k, plan ++ ((List.range' si k).map (Column.chunk_pairs source)).flatten) ∧
      (k = f ∨
        ¬ (si + k < source.total_chunks ∧
          (plan ++ ((List.range' si k).map (Column.chunk_pairs source)).flatten).length <
            MAX_REBALANCE_BATCH)) := by
  intro f
  induction f with
  | zero =>
    intro si plan
    exact ⟨0, le_refl 0, by simp [Column.reindex_loop], Or.inl rfl⟩
  | succ f ih =>
    intro si plan
    rw [Column.reindex_loop]
    by_cases hc : si < source.total_chunks ∧ plan.length < MAX_REBALANCE_BATCH
    · rw [if_pos hc]
      obtain ⟨k, hk, heq, hexit⟩ := ih (si + 1) (plan ++ Column.chunk_pairs source si)
      have hl : (plan ++ Column.chunk_pairs source si) ++
          ((List.range' (si + 1) k).map (Column.chunk_pairs source)).flatten =
          plan ++ ((List.range' si (k + 1)).map (Column.chunk_pairs source)).flatten := by
        rw [List.range'_succ]
        simp [List.append_assoc]
      have hn : si + 1 + k = si + (k + 1) := by omega
      refine ⟨k + 1, by omega, ?_, ?_⟩
      · rw [heq, hl, hn]
      · rcases hexit with rfl | hex
        · exact Or.inl rfl
        · right
          rw [← hl, ← hn]
          exact hex
    · rw [if_neg hc]
      exact ⟨0, Nat.zero_le _, by simp, Or.inr (by simpa using hc)⟩

/-- C5 (amended): a drain step on a front index with `progress <
total_chunks` reads whole chunks starting at `progress`, emitting a
`(key_prefix, address)` pair for each non-empty entry of each chunk read,
advances `progress` by at least one chunk, stops only once the batch has
reached `MAX_REBALANCE_BATCH` pairs or the chunks are exhausted (the final
chunk may push the batch past the limit), and returns the drop signal
exactly when `progress` reaches `total_chunks`. -/
theorem claim_C5_reindex_drain (c : Column) (source : IndexTable)
    (rest : List IndexTable)
    (hq : c.reindex.queue = source :: rest)
    (hp : c.reindex.progress < source.total_chunks) :
    ∃ k, 1 ≤ k ∧ c.reindex.progress + k ≤ source.total_chunks ∧
      Column.reindex_step c =
        ({ c with reindex := { c.reindex with progress := c.reindex.progress + k } },
         (if c.reindex.progress + k = source.total_chunks then some source.id else none),
         ((List.range' c.reindex.progress k).map (Column.chunk_pairs source)).flatten) ∧
      (c.reindex.progress + k = source.total_chunks ∨
        MAX_REBALANCE_BATCH ≤
          (((List.range' c.reindex.progress k).map (Column.chunk_pairs source)).flatten).length) := by
  obtain ⟨k, hk, heq, hexit⟩ :=
    reindex_loop_spec source (source.total_chunks - c.reindex.progress)
      c.reindex.progress []
  have hktot : c.reindex.progress + k ≤ source.total_chunks := by omega
  have hk1 : 1 ≤ k := by
    by_contra hk0
    have hkz : k = 0 := by omega
    subst hkz
    rcases hexit with hf | hex
    · omega
    · refine hex ⟨by omega, ?_⟩
      simp [MAX_REBALANCE_BATCH]
  refine ⟨k, hk1, hktot, ?_, ?_⟩
  · unfold Column.reindex_step
    rw [hq]
    dsimp only
    rw [if_pos (by omega : c.reindex.progress ≠ source.total_chunks)]
    rw [heq]
    dsimp only
    rw [List.nil_append]
  · rcases hexit with hf | hex
    · exact Or.inl (by omega)
    · rw [List.nil_append] at hex
      by_cases hfin : c.reindex.progress + k = source.total_chunks
      · exact Or.inl hfin
      · right
        have := not_and_or.mp hex
        rcases this with h1 | h2
        · omega
        · omega

/-- `filterMap` of a mapped `some` over a replicated `some` cell. -/
theorem filterMap_map_replicate_some {α γ : Type} (n : Nat) (a : α) (g : α → γ) :
    (List.replicate n (some a)).filterMap (fun e => Option.map g e) =
      List.replicate n (g a) := by
  induction n with
  | zero => rfl
  | succ n ih => simp [List.replicate_succ, List.filterMap_cons, ih]

/-- A chunk holding 63 occupied probe slots (capacity 64). -/
def cexChunk : List Entry := List.replicate 63 (some ⟨0, 0⟩)

/-- A 16-bit index whose every chunk holds 63 entries. -/
def cexIdx : IndexTable := { id := ⟨0, 16⟩, chunk_cap := 64, chunks := fun _ => cexChunk }

/-- A column whose reindex queue front is `cexIdx` with progress 0. -/
def cexCol : Column :=
  mkColumn false false false (IndexTable.create_new ⟨0, 17⟩ 64) [cexIdx] [ValueTable.empty]

theorem cex_chunk_pairs_len (cidx : Nat) : (Column.chunk_pairs cexIdx cidx).length = 63 := by
  show ((cexIdx.chunks cidx).filterMap
    (fun e => Option.map (fun a => (cexIdx.recover_key_pfx cidx, a)) e)).length = 63
  rw [show cexIdx.chunks cidx = List.replicate 63 (some ⟨0, 0⟩) from rfl]
  rw [filterMap_map_replicate_some]
  simp

/-- On the all-63-entry index, the drain loop always ends with a batch of
exactly 8253 pairs once it has enough fuel and room. -/
theorem cex_loop_length :
    ∀ (f si : Nat) (plan : List (Key × Address)),
    si + f ≤ 65536 →
    plan.length % 63 = 0 →
    plan.length ≤ 8253 →
    8253 ≤ plan.length + 63 * f →
    ((Column.reindex_loop cexIdx f si plan).2).length =
      (if MAX_REBALANCE_BATCH ≤ plan.length then plan.length else 8253) := by
  intro f
  induction f with
  | zero =>
    intro si plan h1 h2 h3 h4
    have hlen : plan.length = 8253 := by omega
    rw [Column.reindex_loop]
    rw [if_pos (by simp only [MAX_REBALANCE_BATCH]; omega)]
  | succ f ih =>
    intro si plan h1 h2 h3 h4
    rw [Column.reindex_loop]
    have htot : cexIdx.total_chunks = 65536 := rfl
    by_cases hcond : si < cexIdx.total_chunks ∧ plan.length < MAX_REBALANCE_BATCH
    · rw [if_pos hcond]
      have hM : plan.length < 8192 := by
        have := hcond.2
        simp only [MAX_REBALANCE_BATCH] at this
        omega
      have hlen : (plan ++ Column.chunk_pairs cexIdx si).length = plan.length + 63 := by
        rw [List.length_append, cex_chunk_pairs_len]
      have hle : plan.length ≤ 8190 := by omega
      rw [ih (si + 1) _ (by omega) (by rw [hlen]; omega) (by rw [hlen]; omega)
        (by rw [hlen]; omega)]
      rw [hlen]
      simp only [MAX_REBALANCE_BATCH]
      by_cases hge : 8192 ≤ plan.length + 63
      · rw [if_pos hge, if_neg (by omega)]
        omega
      · rw [if_neg hge, if_neg (by omega)]
    · rw [if_neg hcond]
      rw [htot] at hcond
      have hM : MAX_REBALANCE_BATCH ≤ plan.length := by
        rcases not_and_or.mp hcond with h | h
        · omega
        · simp only [MAX_REBALANCE_BATCH] at h ⊢
          omega
      rw [if_pos hM]


/-- The drain step on `cexCol`, written with its loop unevaluated. -/
theorem cex_step_eq : Column.reindex_step cexCol =
    ({ cexCol with reindex := { cexCol.reindex with progress :=
        (Column.reindex_loop cexIdx (cexIdx.total_chunks - cexCol.reindex.progress)
          cexCol.reindex.progress []).1 } },
     (if (Column.reindex_loop cexIdx (cexIdx.total_chunks - cexCol.reindex.progress)
          cexCol.reindex.progress []).1 = cexIdx.total_chunks
      then some cexIdx.id else none),
     (Column.reindex_loop cexIdx (cexIdx.total_chunks - cexCol.reindex.progress)
        cexCol.reindex.progress []).2) := by
  unfold Column.reindex_step
  rw [show cexCol.reindex.queue = [cexIdx] from rfl]
  dsimp only
  split
  · rfl
  · rename_i h
    exact absurd (by decide) h

/-- Extracting the third component of a triple equality. -/
theorem snd_snd_of_eq {a : Column} {b : Option IndexTableId}
    {c : List (Key × Address)}
    {x : Column × Option IndexTableId × List (Key × Address)}
    (h : x = (a, b, c)) : x.2.2 = c := by rw [h]

/-- Counterexample to C5 as stated: on a front index whose chunks hold 63
entries each (capacity 64), the drain step starting at progress 0 emits 8253
pairs — more than `MAX_REBALANCE_BATCH = 8192`, so the batch is not limited
to 8192 entries. -/
theorem claim_C5_counterexample :
    cexCol.reindex.queue = [cexIdx] ∧
    cexCol.reindex.progress < cexIdx.total_chunks ∧
    MAX_REBALANCE_BATCH < ((Column.reindex_step cexCol).2.2).length := by
  refine ⟨rfl, by decide, ?_⟩
  have hc := snd_snd_of_eq cex_step_eq
  have h1 := congrArg List.length hc
  have h2 := cex_loop_length (cexIdx.total_chunks - cexCol.reindex.progress)
    cexCol.reindex.progress [] (by decide) (by decide) (by decide) (by decide)
  have h3 : (if MAX_REBALANCE_BATCH ≤ ([] : List (Key × Address)).length
      then ([] : List (Key × Address)).length else 8253) = 8253 := by
    simp [MAX_REBALANCE_BATCH]
  have hlen := h1.trans (h2.trans h3)
  exact lt_of_lt_of_eq (by decide : MAX_REBALANCE_BATCH < 8253) hlen.symm

/-- Witness for C5 (amended): the drain theorem applied to the concrete
column `cexCol`, whose reindex queue holds the single index `cexIdx` with
progress 0, discharging both hypotheses. -/
theorem claim_C5_witness :
    cexCol.reindex.queue = cexIdx :: [] ∧
    cexCol.reindex.progress < cexIdx.total_chunks ∧
    (∃ k, 1 ≤ k ∧ cexCol.reindex.progress + k ≤ cexIdx.total_chunks ∧
      Column.reindex_step cexCol =
        ({ cexCol with reindex :=
            { cexCol.reindex with progress := cexCol.reindex.progress + k } },
         (if cexCol.reindex.progress + k = cexIdx.total_chunks
          then some cexIdx.id else none),
         ((List.range' cexCol.reindex.progress k).map
            (Column.chunk_pairs cexIdx)).flatten) ∧
      (cexCol.reindex.progress + k = cexIdx.total_chunks ∨
        MAX_REBALANCE_BATCH ≤
          (((List.range' cexCol.reindex.progress k).map
              (Column.chunk_pairs cexIdx)).flatten).length)) :=
  ⟨rfl, by decide, claim_C5_reindex_drain cexCol cexIdx [] rfl (by decide)⟩
